import Mathlib

set_option maxRecDepth 100000

/-!
Verification of the news-article collection and cleaning pipeline.

The development shallowly embeds two Python modules:

* the web scraper (its link resolver, fetch filter and CSV writer), and
* the record-cleaning pipeline (host extraction, title backfill, stable-id
  generation via MD5, body normalization, token counting, duplicate removal
  and completeness filtering over a batch of rows).

Python strings are modelled as Lean strings (lists of characters), pandas
data frames as lists of rows with optional fields (a missing field models a
NaN cell), and a stage that can raise an exception returns an Option, with
none modelling the raised exception.
-/

namespace News

/-! ## Link resolver (web scraper)

The scraper classifies a raw href with two compiled regular expressions,
matched from the start of the string:

* well formed link: the pattern anchored as caret, h t t p s? colon slash
  slash, dot-plus, slash, dot-plus, dollar;
* root path: the pattern anchored as caret, slash, dot-plus, dollar.

In these patterns the dot matches any character except a line feed, and the
dollar anchor matches either at the end of the string or just before a line
feed that is the last character of the string.
-/

/-- Strip one trailing line feed, modelling the position where the dollar
anchor of the regular expression is allowed to match. -/
def stripDollarNl (l : List Char) : List Char :=
  if l.getLast? = some '\n' then l.dropLast else l

/-- Decide whether a character list matches dot-plus followed by the dollar
anchor: after stripping an optional trailing line feed, the remainder is
non-empty and contains no line feed. -/
def dotPlus (l : List Char) : Bool :=
  decide (stripDollarNl l ≠ [] ∧ '\n' ∉ stripDollarNl l)

/-- Decide whether a character list matches dot-plus, slash, dot-plus and
the dollar anchor: after stripping an optional trailing line feed, the
remainder has no line feed and a slash in its interior (neither first nor
last position). -/
def dotSlashDot (l : List Char) : Bool :=
  decide ('\n' ∉ stripDollarNl l ∧ '/' ∈ ((stripDollarNl l).drop 1).dropLast)

/-- Model of the compiled well-formed-link pattern of the scraper: the
string starts with one of the two scheme literals and the remainder matches
dot-plus, slash, dot-plus, dollar. -/
def isWellFormedLink (s : String) : Bool :=
  if s.data.take 7 = "http://".data then dotSlashDot (s.data.drop 7)
  else if s.data.take 8 = "https://".data then dotSlashDot (s.data.drop 8)
  else false

/-- Model of the compiled root-path pattern of the scraper: a slash followed
by dot-plus and the dollar anchor. -/
def isRootPath (s : String) : Bool :=
  match s.data with
  | [] => false
  | c :: rest => decide (c = '/') && dotPlus rest

/-- Model of the link builder of the scraper: pass a well formed link
through unchanged, prepend the host to a root path, otherwise join host and
link with a slash. -/
def buildLink (host link : String) : String :=
  if isWellFormedLink link then link
  else if isRootPath link then host ++ link
  else host ++ "/" ++ link

/-- Declarative reading of dot-plus dollar: the list is a non-empty block
without line feeds, optionally followed by a single final line feed. -/
def DotPlusSpec (l : List Char) : Prop :=
  ∃ b tail, l = b ++ tail ∧ b ≠ [] ∧ '\n' ∉ b ∧ (tail = [] ∨ tail = ['\n'])

/-- Declarative reading of dot-plus, slash, dot-plus, dollar: two non-empty
line-feed-free blocks around a slash, with an optional final line feed. -/
def DotSlashDotSpec (l : List Char) : Prop :=
  ∃ a b tail, l = a ++ '/' :: (b ++ tail) ∧ a ≠ [] ∧ b ≠ [] ∧ '\n' ∉ a ∧
    '\n' ∉ b ∧ (tail = [] ∨ tail = ['\n'])

/-- Declarative reading of the well-formed-link pattern: a scheme literal,
a non-empty line-feed-free block, a slash, a second non-empty
line-feed-free block, and an optional final line feed. -/
def MatchesWellFormed (s : String) : Prop :=
  ∃ pre a b tail, (pre = "http://" ∨ pre = "https://") ∧
    s.data = pre.data ++ a ++ '/' :: (b ++ tail) ∧
    a ≠ [] ∧ b ≠ [] ∧ '\n' ∉ a ∧ '\n' ∉ b ∧ (tail = [] ∨ tail = ['\n'])

/-- Declarative reading of the root-path pattern: a slash followed by a
non-empty line-feed-free block and an optional final line feed. -/
def MatchesRootPath (s : String) : Prop :=
  ∃ b tail, s.data = '/' :: (b ++ tail) ∧ b ≠ [] ∧ '\n' ∉ b ∧
    (tail = [] ∨ tail = ['\n'])

/-! ## Fetching (web scraper)

The page-object module of the repository is not part of the provided
sources, so the transport is modelled from the spec. -/

/-- Raw article as produced by a successful fetch. Modelled from the spec:
a RawArticle carries a url, an optional title and an optional body; the
site-specific page-object class is not part of the provided sources. -/
structure RawArticle where
  url : String
  title : Option String
  body : Option String
deriving DecidableEq

/-- Outcome of one fetch attempt. Modelled from the spec: the transport
classifies failures into an HTTP-status failure (a 4xx or 5xx status) and a
network or connection failure (DNS failure, timeout, retry exhaustion);
on success it parses the page into a RawArticle. -/
inductive FetchOutcome where
  | success (article : RawArticle)
  | httpError
  | maxRetryError
deriving DecidableEq

/-- Python truthiness of the optional body field: a missing body and an
empty body are both falsy. -/
def bodyIsFalsy : Option String → Bool
  | none => true
  | some s => s == ""

/-- Model of the fetch filter of the scraper: exceptions from the transport
are caught and leave no article; a fetched article with falsy body is
discarded; otherwise the article is returned. -/
def fetchArticle (outcome : FetchOutcome) : Option RawArticle :=
  let article? : Option RawArticle :=
    match outcome with
    | .success a => some a
    | .httpError => none
    | .maxRetryError => none
  match article? with
  | some a => if bodyIsFalsy a.body then none else some a
  | none => none

/-- CSV column headers derived by reflection from the first article.
Modelled from the spec: the public attributes of an article, sorted, are
its body, title and url. -/
def csvHeaders : List String := ["body", "title", "url"]

/-- Python str applied to an optional field: a missing value prints as the
four letter word None. -/
def strOfOpt : Option String → String
  | none => "None"
  | some s => s

/-- One file of saved articles: a header row and one row per article. -/
structure SavedFile where
  header : List String
  rows : List (List String)
deriving DecidableEq

/-- Model of the article writer of the scraper. It derives the headers from
the first article of the list; on an empty list the index access raises an
IndexError, modelled as none. -/
def saveArticles (articles : List RawArticle) : Option SavedFile :=
  match articles with
  | [] => none
  | _ :: _ =>
    some { header := csvHeaders,
           rows := articles.map fun a => [strOfOpt a.body, strOfOpt a.title, a.url] }

/-- Model of one collection run of the scraper: resolve every homepage link,
fetch it through the transport, keep the articles produced, then save. -/
def newsScraper (host : String) (links : List String)
    (transport : String → FetchOutcome) : Option SavedFile :=
  saveArticles (links.filterMap fun link => fetchArticle (transport (buildLink host link)))

/-! ## MD5 (stable-id generation)

The cleaning pipeline computes the stable row id as the MD5 hex digest of
the Latin-1 bytes of the url. The hash is implemented here in full on
natural numbers, with 32-bit wrap-around made explicit by reduction
modulo 2 to the 32. -/

/-- Reduce modulo 2 to the 32. -/
def w32 (n : Nat) : Nat := n % 4294967296

/-- Bitwise complement of a 32-bit value. -/
def not32 (x : Nat) : Nat := 4294967295 - x

/-- Rotate a 32-bit value left by s bits. -/
def rotl32 (x s : Nat) : Nat := w32 (x * 2 ^ s) + x / 2 ^ (32 - s)

/-- The 64 sine-derived round constants of MD5. -/
def md5K : List Nat :=
  [0xd76aa478, 0xe8c7b756, 0x242070db, 0xc1bdceee,
   0xf57c0faf, 0x4787c62a, 0xa8304613, 0xfd469501,
   0x698098d8, 0x8b44f7af, 0xffff5bb1, 0x895cd7be,
   0x6b901122, 0xfd987193, 0xa679438e, 0x49b40821,
   0xf61e2562, 0xc040b340, 0x265e5a51, 0xe9b6c7aa,
   0xd62f105d, 0x02441453, 0xd8a1e681, 0xe7d3fbc8,
   0x21e1cde6, 0xc33707d6, 0xf4d50d87, 0x455a14ed,
   0xa9e3e905, 0xfcefa3f8, 0x676f02d9, 0x8d2a4c8a,
   0xfffa3942, 0x8771f681, 0x6d9d6122, 0xfde5380c,
   0xa4beea44, 0x4bdecfa9, 0xf6bb4b60, 0xbebfbc70,
   0x289b7ec6, 0xeaa127fa, 0xd4ef3085, 0x04881d05,
   0xd9d4d039, 0xe6db99e5, 0x1fa27cf8, 0xc4ac5665,
   0xf4292244, 0x432aff97, 0xab9423a7, 0xfc93a039,
   0x655b59c3, 0x8f0ccc92, 0xffeff47d, 0x85845dd1,
   0x6fa87e4f, 0xfe2ce6e0, 0xa3014314, 0x4e0811a1,
   0xf7537e82, 0xbd3af235, 0x2ad7d2bb, 0xeb86d391]

/-- The 64 per-round left-rotation amounts of MD5. -/
def md5S : List Nat :=
  [7, 12, 17, 22, 7, 12, 17, 22, 7, 12, 17, 22, 7, 12, 17, 22,
   5, 9, 14, 20, 5, 9, 14, 20, 5, 9, 14, 20, 5, 9, 14, 20,
   4, 11, 16, 23, 4, 11, 16, 23, 4, 11, 16, 23, 4, 11, 16, 23,
   6, 10, 15, 21, 6, 10, 15, 21, 6, 10, 15, 21, 6, 10, 15, 21]

/-- Running state of the MD5 compression function. -/
structure Md5State where
  a : Nat
  b : Nat
  c : Nat
  d : Nat
deriving DecidableEq

/-- One MD5 round, with the message schedule given as a word lookup. -/
def md5Step (m : Nat → Nat) (st : Md5State) (i : Nat) : Md5State :=
  let fg : Nat × Nat :=
    if i < 16 then ((st.b &&& st.c) ||| (not32 st.b &&& st.d), i)
    else if i < 32 then ((st.d &&& st.b) ||| (not32 st.d &&& st.c), (5 * i + 1) % 16)
    else if i < 48 then (st.b ^^^ st.c ^^^ st.d, (3 * i + 5) % 16)
    else (st.c ^^^ (st.b ||| not32 st.d), (7 * i) % 16)
  let tmp := w32 (st.a + fg.1 + md5K.getD i 0 + m fg.2)
  ⟨st.d, w32 (st.b + rotl32 tmp (md5S.getD i 0)), st.b, st.c⟩

/-- Read a little-endian 32-bit word from the first four bytes of a list. -/
def leWord (l : List Nat) : Nat :=
  l.getD 0 0 + 256 * l.getD 1 0 + 65536 * l.getD 2 0 + 16777216 * l.getD 3 0

/-- Process one 64-byte chunk of the padded message. -/
def md5Chunk (st : Md5State) (chunk : List Nat) : Md5State :=
  let m : Nat → Nat := fun g => leWord (chunk.drop (4 * g))
  let e := (List.range 64).foldl (md5Step m) st
  ⟨w32 (st.a + e.a), w32 (st.b + e.b), w32 (st.c + e.c), w32 (st.d + e.d)⟩

/-- Little-endian byte decomposition of a value into a fixed number of
bytes. -/
def toLEBytes : Nat → Nat → List Nat
  | 0, _ => []
  | n + 1, x => (x % 256) :: toLEBytes n (x / 256)

/-- Split a byte list into chunks of 64, with the list length as
structural fuel so that the definition reduces by evaluation. -/
def chunksAux : Nat → List Nat → List (List Nat)
  | 0, _ => []
  | _, [] => []
  | fuel + 1, l => l.take 64 :: chunksAux fuel (l.drop 64)

/-- Split a byte list into chunks of 64 bytes. -/
def chunks64 (l : List Nat) : List (List Nat) := chunksAux l.length l

/-- MD5 padding: append the byte 128, zero bytes up to 56 modulo 64, and
the 64-bit little-endian bit length of the message. -/
def md5Pad (msg : List Nat) : List Nat :=
  msg ++ 128 :: List.replicate ((119 - msg.length % 64) % 64) 0
      ++ toLEBytes 8 (msg.length * 8 % 18446744073709551616)

/-- MD5 digest of a byte list, as 16 bytes. -/
def md5Digest (msg : List Nat) : List Nat :=
  let st := (chunks64 (md5Pad msg)).foldl md5Chunk
    ⟨0x67452301, 0xefcdab89, 0x98badcfe, 0x10325476⟩
  toLEBytes 4 st.a ++ toLEBytes 4 st.b ++ toLEBytes 4 st.c ++ toLEBytes 4 st.d

/-- Lowercase hexadecimal digit for a value below 16. -/
def hexDigit (n : Nat) : Char :=
  Char.ofNat (if n < 10 then 48 + n else 87 + n)

/-- Lowercase hexadecimal rendering of an MD5 digest. -/
def md5Hex (msg : List Nat) : String :=
  ⟨(md5Digest msg).foldr (fun b acc => hexDigit (b / 16) :: hexDigit (b % 16) :: acc) []⟩

/-- Latin-1 encoding of a string, as in the uid stage of the pipeline: every
code point up to 255 encodes as one byte, any higher code point raises a
UnicodeEncodeError, modelled as none. -/
def encodeLatin1 (s : String) : Option (List Nat) :=
  s.data.mapM fun c => if c.toNat ≤ 255 then some c.toNat else none

/-- The uid the pipeline derives from a url: the MD5 hex digest of its
Latin-1 bytes, when the url encodes. -/
def uidOf (url : String) : Option String :=
  (encodeLatin1 url).map md5Hex

/-! ## Host extraction (urlparse netloc)

The host stage applies the standard-library url parser to every url and
keeps its netloc component. The parser is modelled here: an optional
scheme prefix, made of scheme characters and ending at the first colon, is
removed; if the remainder starts with two slashes the netloc runs up to
the next slash, question mark or hash sign, and an unbalanced square
bracket in it raises a ValueError (modelled as none); otherwise the netloc
is empty. Further checks of the library on exotic non-Latin-1 code points
are not modelled; the pipeline theorems below only ever evaluate the
parser on Latin-1 urls. -/

/-- Characters allowed in a url scheme: letters, digits, plus, minus and
dot. -/
def schemeChar (c : Char) : Bool :=
  c.isAlpha || c.isDigit || c == '+' || c == '-' || c == '.'

/-- Remove a leading scheme, when the part before the first colon is
non-empty and made of scheme characters only. -/
def removeScheme (l : List Char) : List Char :=
  let before := l.takeWhile (fun c => c != ':')
  if l.contains ':' && !before.isEmpty && before.all schemeChar then
    l.drop (before.length + 1)
  else l

/-- Model of the netloc component returned by the url parser, with none
modelling the ValueError raised on an unbalanced square bracket. -/
def netlocOf (url : String) : Option String :=
  match removeScheme url.data with
  | '/' :: '/' :: rest =>
    let nl := rest.takeWhile (fun c => c != '/' && c != '?' && c != '#')
    if ('[' ∈ nl ∧ ']' ∉ nl) ∨ (']' ∈ nl ∧ '[' ∉ nl) then none
    else some ⟨nl⟩
  | _ => some ""

/-! ## Title backfill -/

/-- The final path segment a title is backfilled from: the match of the
pattern bracket-caret-slash-bracket-plus-dollar, which is the longest
non-empty suffix of the url containing no slash; none models the absent
match. -/
def lastSegment (url : String) : Option String :=
  if (url.data.reverse.takeWhile (fun c => c != '/')).reverse.isEmpty then none
  else some ⟨(url.data.reverse.takeWhile (fun c => c != '/')).reverse⟩

/-- Split a character list on every occurrence of a separator, keeping
empty parts, as the Python split method does. -/
def splitOnChar (sep : Char) : List Char → List (List Char)
  | [] => [[]]
  | c :: rest =>
    if c = sep then [] :: splitOnChar sep rest
    else
      match splitOnChar sep rest with
      | [] => [[c]]
      | p :: ps => (c :: p) :: ps

/-- Join character lists with a single separator character between parts,
as the Python join method does. -/
def joinWith (sep : Char) : List (List Char) → List Char
  | [] => []
  | [p] => p
  | p :: ps => p ++ sep :: joinWith sep ps

/-- The backfilled title derived from a url segment: split on minus signs
and rejoin with single spaces. -/
def hyphenToSpace (seg : String) : String :=
  ⟨joinWith ' ' (splitOnChar '-' seg.data)⟩

/-! ## Body normalization -/

/-- Replace one character as the body stage does, character by character:
a line feed or carriage return becomes a space via two successive
single-character replacements. -/
def stripChar (c : Char) : Char :=
  if c = '\n' then ' ' else if c = '\r' then ' ' else c

/-- Model of the body normalization of the pipeline on one body string. -/
def removeNewLinesFromText (body : String) : String :=
  ⟨body.data.map stripChar⟩

/-! ## Token counting

The token stage tokenizes a text, keeps alphabetic tokens, lowercases
them, removes Spanish stop words and counts the rest. The external
tokenizer is modelled as splitting on whitespace; the claims checked below
use only the presence and type of the counts, never their exact values. -/

/-- Split a character list at every character satisfying a predicate,
keeping empty pieces. -/
def splitOnPred (p : Char → Bool) : List Char → List (List Char)
  | [] => [[]]
  | c :: rest =>
    if p c then [] :: splitOnPred p rest
    else
      match splitOnPred p rest with
      | [] => [[c]]
      | t :: ts => (c :: t) :: ts

/-- Tokenizer model: split a text on whitespace and drop empty pieces.
Modelled from the spec: tokenize into words; the external library
tokenizer itself is not part of the repository. -/
def wordTokenize (s : String) : List String :=
  ((splitOnPred (fun c => c == ' ' || c == '\n' || c == '\t' || c == '\r')
    s.data).filter (fun t => !t.isEmpty)).map fun t => ⟨t⟩

/-- Python alphabetic test on a token: non-empty and every character
alphabetic. -/
def pyIsAlpha (s : String) : Bool :=
  s != "" && s.data.all Char.isAlpha

/-- Python lowercasing of a token. -/
def pyLower (s : String) : String :=
  ⟨s.data.map Char.toLower⟩

/-- Spanish stop words. Modelled from the spec: the language-specific
stop-word set loaded at module initialization from the external corpus; a
representative portion of the list. -/
def spanishStopWords : List String :=
  ["de", "la", "que", "el", "en", "y", "a", "los", "del", "se", "las",
   "por", "un", "para", "con", "no", "una", "su", "al", "lo", "como",
   "mas", "pero", "sus", "le", "ya", "o", "este", "si", "porque", "esta",
   "entre", "cuando", "muy", "sin", "sobre", "tambien", "me", "hasta",
   "hay", "donde", "quien", "desde", "todo", "nos", "durante", "todos",
   "uno", "les", "ni", "contra", "otros", "ese", "eso", "ante", "ellos",
   "e", "esto", "mi", "antes", "algunos", "que", "unos", "yo", "otro",
   "otras", "otra", "el", "tanto", "esa", "estos", "mucho", "quienes",
   "nada", "muchos", "cual", "poco", "ella", "estar", "estas", "algunas",
   "algo", "nosotros"]

/-- Model of the per-text relevant-word count of the token stage. -/
def tokenCount (s : String) : Nat :=
  ((((wordTokenize s).filter pyIsAlpha).map pyLower).filter
    fun w => !(spanishStopWords.contains w)).length

/-! ## Rows and data frames

A raw row is one record of the scraped CSV file as read by the cleaning
pipeline: a url column plus optional title and body columns, where a
missing cell is a NaN. The url column is modelled as always present: every
batch the theorems below consider has urls, and a NaN url would already
raise in the host stage. A data frame is a list of rows; the uid produced
by the uid stage becomes the frame index, so it is kept as an extra field
that the completeness filter does not inspect. -/

/-- One row of the raw scraped batch. -/
structure RawRow where
  url : String
  title : Option String
  body : Option String
deriving DecidableEq, Repr

/-- One row of the data frame as it moves through the pipeline stages. -/
structure Row where
  url : String
  title : Option String
  body : Option String
  newspaperUid : Option String
  host : Option String
  uid : Option String
  nTokensTitle : Option Nat
  nTokensBody : Option Nat
deriving DecidableEq, Repr

/-- The raw batch as a data frame: the three scraped columns, with every
derived column still absent. -/
def initRow (r : RawRow) : Row :=
  ⟨r.url, r.title, r.body, none, none, none, none, none⟩

/-- Map a fallible per-row operation over a frame; none anywhere models an
exception aborting the whole stage, as the pandas apply call would. -/
def omlist (f : α → Option β) : List α → Option (List β)
  | [] => some []
  | a :: as => (f a).bind fun b => (omlist f as).map fun bs => b :: bs

/-- Stage: attach the newspaper uid to every row. -/
def addNewspaperUidColumn (nuid : String) (rows : List Row) : List Row :=
  rows.map fun r => { r with newspaperUid := some nuid }

/-- Per-row host extraction; none models the ValueError of the url parser. -/
def hostRow (r : Row) : Option Row :=
  (netlocOf r.url).map fun h => { r with host := some h }

/-- Stage: extract the host of every url. -/
def extractHost (rows : List Row) : Option (List Row) :=
  omlist hostRow rows

/-- Per-row title backfill. A present title is kept. For an absent title
the final url segment is split on minus signs and rejoined with spaces;
when the segment pattern does not match, the element-wise split is applied
to a NaN and raises an AttributeError, modelled as none. -/
def backfillRow (r : Row) : Option Row :=
  match r.title with
  | some _ => some r
  | none => (lastSegment r.url).map fun seg =>
      { r with title := some (hyphenToSpace seg) }

/-- Stage: backfill missing titles. -/
def addMissingTitles (rows : List Row) : Option (List Row) :=
  omlist backfillRow rows

/-- Per-row uid generation; none models the UnicodeEncodeError raised when
a url does not encode to Latin-1. -/
def uidRow (r : Row) : Option Row :=
  (encodeLatin1 r.url).map fun bytes => { r with uid := some (md5Hex bytes) }

/-- Stage: generate the stable uid of every row from its url. -/
def generateUidsForRows (rows : List Row) : Option (List Row) :=
  omlist uidRow rows

/-- Per-row body normalization; listing the characters of a NaN body
raises a TypeError, modelled as none. -/
def stripRow (r : Row) : Option Row :=
  r.body.map fun b => { r with body := some (removeNewLinesFromText b) }

/-- Stage: remove line breaks from every body. -/
def removeNewLinesFromBody (rows : List Row) : Option (List Row) :=
  omlist stripRow rows

/-- Columns the token stage sees when counting title tokens; a row with a
NaN in any of them is dropped before counting and therefore receives a NaN
count. -/
def rowNaAtTitleCount (r : Row) : Bool :=
  r.title.isNone || r.body.isNone || r.newspaperUid.isNone || r.host.isNone

/-- Stage: derive the title token count column. -/
def tokensTitleRow (r : Row) : Row :=
  { r with nTokensTitle :=
      if rowNaAtTitleCount r then none else r.title.map tokenCount }

/-- Columns the token stage sees when counting body tokens, now including
the title count column assigned just before. -/
def rowNaAtBodyCount (r : Row) : Bool :=
  r.title.isNone || r.body.isNone || r.newspaperUid.isNone || r.host.isNone
    || r.nTokensTitle.isNone

/-- Stage: derive the body token count column. -/
def tokensBodyRow (r : Row) : Row :=
  { r with nTokensBody :=
      if rowNaAtBodyCount r then none else r.body.map tokenCount }

/-- Stage: drop duplicate titles, keeping the first occurrence, scanning in
order with the set of titles already seen. -/
def dedupByTitle : List Row → List (Option String) → List Row
  | [], _ => []
  | r :: rs, seen =>
    if r.title ∈ seen then dedupByTitle rs seen
    else r :: dedupByTitle rs (r.title :: seen)

/-- Stage: remove duplicate entries of the title column. -/
def removeDuplicateEntries (rows : List Row) : List Row :=
  dedupByTitle rows []

/-- Completeness of one row for the final dropna: every column is present.
The uid is the frame index by this point and is not a column. -/
def rowComplete (r : Row) : Bool :=
  r.title.isSome && r.body.isSome && r.newspaperUid.isSome && r.host.isSome
    && r.nTokensTitle.isSome && r.nTokensBody.isSome

/-- Stage: drop rows with missing data. -/
def dropRowsMissingData (rows : List Row) : List Row :=
  rows.filter rowComplete

/-- The pipeline up to and including the token counts, in the order of the
main function: tag the newspaper uid, extract hosts, backfill titles,
generate uids, normalize bodies, count title tokens, count body tokens. -/
def preDedup (batch : List RawRow) (nuid : String) : Option (List Row) :=
  (extractHost (addNewspaperUidColumn nuid (batch.map initRow))).bind fun df2 =>
    (addMissingTitles df2).bind fun df3 =>
      (generateUidsForRows df3).bind fun df4 =>
        (removeNewLinesFromBody df4).map fun df5 =>
          (df5.map tokensTitleRow).map tokensBodyRow

/-- The whole cleaning pipeline: the staged transform above, then duplicate
removal and the completeness filter; none models an uncaught exception
aborting the run. -/
def cleanPipeline (batch : List RawRow) (nuid : String) : Option (List Row) :=
  (preDedup batch nuid).map fun df =>
    dropRowsMissingData (removeDuplicateEntries df)

/-- The fused per-row transform equivalent to the stages before duplicate
removal; used to reason about the pipeline row by row. -/
def processRow (nuid : String) (r : RawRow) : Option Row :=
  (hostRow { initRow r with newspaperUid := some nuid }).bind fun x =>
    (backfillRow x).bind fun y =>
      (uidRow y).bind fun z =>
        (stripRow z).map fun w => tokensBodyRow (tokensTitleRow w)

/-! ## Theorems: pattern matchers agree with their declarative readings -/

theorem stripDollarNl_eq_self {l : List Char} (h : l.getLast? ≠ some '\n') :
    stripDollarNl l = l := by
  unfold stripDollarNl
  rw [if_neg h]

theorem stripDollarNl_concat (l : List Char) :
    stripDollarNl (l ++ ['\n']) = l := by
  unfold stripDollarNl
  rw [List.getLast?_concat, if_pos rfl, List.dropLast_concat]

theorem getLast?_ne_nl {b : List Char} (hb : b ≠ []) (hnb : '\n' ∉ b) :
    b.getLast? ≠ some '\n' := by
  intro hm
  apply hnb
  have hg := List.getLast?_eq_getLast b hb
  rw [hg] at hm
  have := Option.some.inj hm
  rw [← this]
  exact List.getLast_mem hb

theorem dotPlus_iff {l : List Char} : dotPlus l = true ↔ DotPlusSpec l := by
  unfold dotPlus
  rw [decide_eq_true_iff]
  constructor
  · rintro ⟨h1, h2⟩
    by_cases hl : l.getLast? = some '\n'
    · have hne : l ≠ [] := by rintro rfl; simp at hl
      have hx : l.getLast hne = '\n' := by
        have hg := List.getLast?_eq_getLast l hne
        rw [hg] at hl
        exact Option.some.inj hl
      have hld : l.dropLast ++ ['\n'] = l := by
        have h' := List.dropLast_append_getLast hne
        rw [hx] at h'
        exact h'
      have hcore : stripDollarNl l = l.dropLast := by
        unfold stripDollarNl; rw [if_pos hl]
      rw [hcore] at h1 h2
      exact ⟨l.dropLast, ['\n'], hld.symm, h1, h2, Or.inr rfl⟩
    · have hcore : stripDollarNl l = l := stripDollarNl_eq_self hl
      rw [hcore] at h1 h2
      exact ⟨l, [], (List.append_nil l).symm, h1, h2, Or.inl rfl⟩
  · rintro ⟨b, tail, rfl, hb, hnb, htail | htail⟩
    · subst htail
      rw [List.append_nil, stripDollarNl_eq_self (getLast?_ne_nl hb hnb)]
      exact ⟨hb, hnb⟩
    · subst htail
      rw [stripDollarNl_concat]
      exact ⟨hb, hnb⟩

theorem dotSlashDot_iff {l : List Char} :
    dotSlashDot l = true ↔ DotSlashDotSpec l := by
  unfold dotSlashDot
  rw [decide_eq_true_iff]
  constructor
  · rintro ⟨hnl, hmem⟩
    -- name the stripped core and decompose it around the found slash
    rcases hc : stripDollarNl l with _ | ⟨c0, core'⟩
    · rw [hc] at hmem; simp at hmem
    rw [hc] at hmem
    simp only [List.drop_one, List.tail_cons] at hmem
    rcases List.eq_nil_or_concat core' with rfl | ⟨l', x, rfl⟩
    · simp at hmem
    simp only [List.concat_eq_append] at hc hmem
    rw [List.dropLast_concat] at hmem
    obtain ⟨p, q, hpq⟩ := List.append_of_mem hmem
    have hfull : stripDollarNl l = (c0 :: p) ++ '/' :: (q ++ [x]) := by
      rw [hc, hpq]
      simp [List.append_assoc]
    have hna : '\n' ∉ c0 :: p := fun hm =>
      hnl (by rw [hfull]; exact List.mem_append.mpr (Or.inl hm))
    have hnb : '\n' ∉ q ++ [x] := fun hm =>
      hnl (by
        rw [hfull]
        exact List.mem_append.mpr (Or.inr (List.mem_cons.mpr (Or.inr hm))))
    by_cases hlast : l.getLast? = some '\n'
    · have hne : l ≠ [] := by rintro rfl; simp at hlast
      have hx : l.getLast hne = '\n' := by
        have hg := List.getLast?_eq_getLast l hne
        rw [hg] at hlast
        exact Option.some.inj hlast
      have hl : l = stripDollarNl l ++ ['\n'] := by
        have h' := List.dropLast_append_getLast hne
        rw [hx] at h'
        unfold stripDollarNl
        rw [if_pos hlast]
        exact h'.symm
      refine ⟨c0 :: p, q ++ [x], ['\n'], ?_, by simp, by simp,
        hna, hnb, Or.inr rfl⟩
      rw [hl, hfull]
      simp [List.append_assoc]
    · have hl : l = stripDollarNl l := (stripDollarNl_eq_self hlast).symm
      refine ⟨c0 :: p, q ++ [x], [], ?_, by simp, by simp,
        hna, hnb, Or.inl rfl⟩
      rw [hl, hfull]
      simp [List.append_assoc]
  · rintro ⟨a, b, tail, rfl, ha, hb, hna, hnb, htail⟩
    rcases List.eq_nil_or_concat b with rfl | ⟨b', x, rfl⟩
    · exact absurd rfl hb
    simp only [List.concat_eq_append] at hb hnb ⊢
    have hxnl : x ≠ '\n' := fun hx =>
      hnb (List.mem_append.mpr (Or.inr (by rw [hx]; exact List.mem_singleton_self _)))
    have hcore : stripDollarNl (a ++ '/' :: ((b' ++ [x]) ++ tail)) =
        a ++ '/' :: (b' ++ [x]) := by
      rcases htail with rfl | rfl
      · rw [List.append_nil]
        apply stripDollarNl_eq_self
        have hrw : a ++ '/' :: (b' ++ [x]) = (a ++ '/' :: b') ++ [x] := by
          simp [List.append_assoc]
        rw [hrw, List.getLast?_concat]
        intro hcontra
        exact hxnl (Option.some.inj hcontra)
      · have hrw : a ++ '/' :: ((b' ++ [x]) ++ ['\n']) =
            (a ++ '/' :: (b' ++ [x])) ++ ['\n'] := by
          simp [List.append_assoc]
        rw [hrw, stripDollarNl_concat]
    rw [hcore]
    constructor
    · intro hmem'
      rcases List.mem_append.mp hmem' with h | h
      · exact hna h
      · rcases List.mem_cons.mp h with h | h
        · exact absurd h (by decide)
        · exact hnb h
    · rcases ha' : a with _ | ⟨a0, a'⟩
      · exact absurd ha' ha
      simp only [List.cons_append, List.drop_one, List.tail_cons]
      have hrw : a' ++ '/' :: (b' ++ [x]) = (a' ++ '/' :: b') ++ [x] := by
        simp [List.append_assoc]
      rw [hrw, List.dropLast_concat]
      simp

theorem http_data_eq : "http://".data = ['h', 't', 't', 'p', ':', '/', '/'] := rfl

theorem https_data_eq :
    "https://".data = ['h', 't', 't', 'p', 's', ':', '/', '/'] := rfl

theorem take7_of_http (R : List Char) :
    (['h', 't', 't', 'p', ':', '/', '/'] ++ R).take 7 =
      ['h', 't', 't', 'p', ':', '/', '/'] := rfl

theorem take7_of_https (R : List Char) :
    (['h', 't', 't', 'p', 's', ':', '/', '/'] ++ R).take 7 =
      ['h', 't', 't', 'p', 's', ':', '/'] := rfl

theorem take8_of_https (R : List Char) :
    (['h', 't', 't', 'p', 's', ':', '/', '/'] ++ R).take 8 =
      ['h', 't', 't', 'p', 's', ':', '/', '/'] := rfl

theorem drop7_of_http (R : List Char) :
    (['h', 't', 't', 'p', ':', '/', '/'] ++ R).drop 7 = R := rfl

theorem drop8_of_https (R : List Char) :
    (['h', 't', 't', 'p', 's', ':', '/', '/'] ++ R).drop 8 = R := rfl

theorem isWellFormedLink_iff {s : String} :
    isWellFormedLink s = true ↔ MatchesWellFormed s := by
  unfold isWellFormedLink
  by_cases h1 : s.data.take 7 = "http://".data
  · rw [if_pos h1]
    have hs : s.data = "http://".data ++ s.data.drop 7 := by
      conv_lhs => rw [← List.take_append_drop 7 s.data]
      rw [h1]
    constructor
    · intro hd
      obtain ⟨a, b, tail, heq, ha, hb, hna, hnb, ht⟩ := dotSlashDot_iff.mp hd
      refine ⟨"http://", a, b, tail, Or.inl rfl, ?_, ha, hb, hna, hnb, ht⟩
      rw [hs, heq, List.append_assoc]
    · rintro ⟨pre, a, b, tail, hpre, heq, ha, hb, hna, hnb, ht⟩
      apply dotSlashDot_iff.mpr
      rcases hpre with rfl | rfl
      · refine ⟨a, b, tail, ?_, ha, hb, hna, hnb, ht⟩
        rw [heq, http_data_eq, List.append_assoc, drop7_of_http]
      · exfalso
        rw [heq, https_data_eq, List.append_assoc, take7_of_https,
          http_data_eq] at h1
        exact absurd h1 (by decide)
  · rw [if_neg h1]
    by_cases h2 : s.data.take 8 = "https://".data
    · rw [if_pos h2]
      have hs : s.data = "https://".data ++ s.data.drop 8 := by
        conv_lhs => rw [← List.take_append_drop 8 s.data]
        rw [h2]
      constructor
      · intro hd
        obtain ⟨a, b, tail, heq, ha, hb, hna, hnb, ht⟩ := dotSlashDot_iff.mp hd
        refine ⟨"https://", a, b, tail, Or.inr rfl, ?_, ha, hb, hna, hnb, ht⟩
        rw [hs, heq, List.append_assoc]
      · rintro ⟨pre, a, b, tail, hpre, heq, ha, hb, hna, hnb, ht⟩
        apply dotSlashDot_iff.mpr
        rcases hpre with rfl | rfl
        · exfalso
          apply h1
          rw [heq, http_data_eq, List.append_assoc, take7_of_http]
        · refine ⟨a, b, tail, ?_, ha, hb, hna, hnb, ht⟩
          rw [heq, https_data_eq, List.append_assoc, drop8_of_https]
    · rw [if_neg h2]
      constructor
      · intro h
        exact absurd h (by decide)
      · rintro ⟨pre, a, b, tail, hpre, heq, -, -, -, -, -⟩
        rcases hpre with rfl | rfl
        · exfalso
          apply h1
          rw [heq, http_data_eq, List.append_assoc, take7_of_http]
        · exfalso
          apply h2
          rw [heq, https_data_eq, List.append_assoc, take8_of_https]

theorem isRootPath_iff {s : String} :
    isRootPath s = true ↔ MatchesRootPath s := by
  unfold isRootPath
  rcases hs : s.data with _ | ⟨c, rest⟩
  · constructor
    · intro h
      exact absurd h (by simp)
    · rintro ⟨b, tail, heq, -, -, -⟩
      rw [hs] at heq
      simp at heq
  · rw [Bool.and_eq_true, decide_eq_true_iff]
    constructor
    · rintro ⟨rfl, hd⟩
      obtain ⟨b, tail, heq, hb, hnb, ht⟩ := dotPlus_iff.mp hd
      exact ⟨b, tail, by rw [hs, heq], hb, hnb, ht⟩
    · rintro ⟨b, tail, heq, hb, hnb, ht⟩
      rw [hs] at heq
      injection heq with hc hrest
      exact ⟨hc, dotPlus_iff.mpr ⟨b, tail, hrest, hb, hnb, ht⟩⟩

theorem not_take7_http_of_scheme {sd r : List Char}
    (hcolon : ':' ∉ sd) (hne : sd ≠ ['h', 't', 't', 'p']) :
    (sd ++ ':' :: r).take 7 ≠ ['h', 't', 't', 'p', ':', '/', '/'] := by
  intro h
  rcases sd with _ | ⟨c1, _ | ⟨c2, _ | ⟨c3, _ | ⟨c4, _ | ⟨c5, sd'⟩⟩⟩⟩⟩
  · have h' : ':' :: r.take 6 = ['h', 't', 't', 'p', ':', '/', '/'] := h
    injection h' with h1 h'
    exact absurd h1 (by decide)
  · have h' : c1 :: ':' :: r.take 5 = ['h', 't', 't', 'p', ':', '/', '/'] := h
    injection h' with h1 h'
    injection h' with h2 h'
    exact absurd h2 (by decide)
  · have h' : c1 :: c2 :: ':' :: r.take 4 =
        ['h', 't', 't', 'p', ':', '/', '/'] := h
    injection h' with h1 h'
    injection h' with h2 h'
    injection h' with h3 h'
    exact absurd h3 (by decide)
  · have h' : c1 :: c2 :: c3 :: ':' :: r.take 3 =
        ['h', 't', 't', 'p', ':', '/', '/'] := h
    injection h' with h1 h'
    injection h' with h2 h'
    injection h' with h3 h'
    injection h' with h4 h'
    exact absurd h4 (by decide)
  · have h' : c1 :: c2 :: c3 :: c4 :: ':' :: r.take 2 =
        ['h', 't', 't', 'p', ':', '/', '/'] := h
    injection h' with h1 h'
    injection h' with h2 h'
    injection h' with h3 h'
    injection h' with h4 h'
    exact hne (by rw [h1, h2, h3, h4])
  · have h' : c1 :: c2 :: c3 :: c4 :: c5 :: ((sd' ++ ':' :: r).take 2) =
        ['h', 't', 't', 'p', ':', '/', '/'] := h
    injection h' with h1 h'
    injection h' with h2 h'
    injection h' with h3 h'
    injection h' with h4 h'
    injection h' with h5 h'
    apply hcolon
    rw [← h5]
    simp

theorem not_take8_https_of_scheme {sd r : List Char}
    (hcolon : ':' ∉ sd) (hne : sd ≠ ['h', 't', 't', 'p', 's']) :
    (sd ++ ':' :: r).take 8 ≠ ['h', 't', 't', 'p', 's', ':', '/', '/'] := by
  intro h
  rcases sd with _ | ⟨c1, _ | ⟨c2, _ | ⟨c3, _ | ⟨c4, _ | ⟨c5, _ | ⟨c6, sd'⟩⟩⟩⟩⟩⟩
  · have h' : ':' :: r.take 7 = ['h', 't', 't', 'p', 's', ':', '/', '/'] := h
    injection h' with h1 h'
    exact absurd h1 (by decide)
  · have h' : c1 :: ':' :: r.take 6 =
        ['h', 't', 't', 'p', 's', ':', '/', '/'] := h
    injection h' with h1 h'
    injection h' with h2 h'
    exact absurd h2 (by decide)
  · have h' : c1 :: c2 :: ':' :: r.take 5 =
        ['h', 't', 't', 'p', 's', ':', '/', '/'] := h
    injection h' with h1 h'
    injection h' with h2 h'
    injection h' with h3 h'
    exact absurd h3 (by decide)
  · have h' : c1 :: c2 :: c3 :: ':' :: r.take 4 =
        ['h', 't', 't', 'p', 's', ':', '/', '/'] := h
    injection h' with h1 h'
    injection h' with h2 h'
    injection h' with h3 h'
    injection h' with h4 h'
    exact absurd h4 (by decide)
  · have h' : c1 :: c2 :: c3 :: c4 :: ':' :: r.take 3 =
        ['h', 't', 't', 'p', 's', ':', '/', '/'] := h
    injection h' with h1 h'
    injection h' with h2 h'
    injection h' with h3 h'
    injection h' with h4 h'
    injection h' with h5 h'
    exact absurd h5 (by decide)
  · have h' : c1 :: c2 :: c3 :: c4 :: c5 :: ':' :: r.take 2 =
        ['h', 't', 't', 'p', 's', ':', '/', '/'] := h
    injection h' with h1 h'
    injection h' with h2 h'
    injection h' with h3 h'
    injection h' with h4 h'
    injection h' with h5 h'
    exact hne (by rw [h1, h2, h3, h4, h5])
  · have h' : c1 :: c2 :: c3 :: c4 :: c5 :: c6 :: ((sd' ++ ':' :: r).take 2) =
        ['h', 't', 't', 'p', 's', ':', '/', '/'] := h
    injection h' with h1 h'
    injection h' with h2 h'
    injection h' with h3 h'
    injection h' with h4 h'
    injection h' with h5 h'
    injection h' with h6 h'
    apply hcolon
    rw [← h6]
    simp

theorem mem_stripDollarNl {l : List Char} {c : Char}
    (h : c ∈ stripDollarNl l) : c ∈ l := by
  unfold stripDollarNl at h
  split at h
  · exact (List.dropLast_sublist l).subset h
  · exact h

theorem buildLink_else {host link : String}
    (h1 : isWellFormedLink link = false) (h2 : isRootPath link = false) :
    buildLink host link = host ++ "/" ++ link := by
  simp [buildLink, h1, h2]

theorem isRootPath_false_of_head {s : String} {c : Char} {l : List Char}
    (hs : s.data = c :: l) (hc : c ≠ '/') : isRootPath s = false := by
  unfold isRootPath
  rw [hs]
  simp [hc]

theorem isWellFormedLink_false_of_scheme {scheme rest : String}
    (hcolon : ':' ∉ scheme.data)
    (hhttp : scheme.data ≠ ['h', 't', 't', 'p'])
    (hhttps : scheme.data ≠ ['h', 't', 't', 'p', 's']) :
    isWellFormedLink (scheme ++ "://" ++ rest) = false := by
  have hdata : (scheme ++ "://" ++ rest).data =
      scheme.data ++ ':' :: '/' :: '/' :: rest.data := by
    rw [String.data_append, String.data_append]
    simp [List.append_assoc]
  unfold isWellFormedLink
  rw [hdata]
  have hn7 : ¬ ((scheme.data ++ ':' :: '/' :: '/' :: rest.data).take 7 =
      "http://".data) := by
    rw [http_data_eq]
    exact not_take7_http_of_scheme hcolon hhttp
  have hn8 : ¬ ((scheme.data ++ ':' :: '/' :: '/' :: rest.data).take 8 =
      "https://".data) := by
    rw [https_data_eq]
    exact not_take8_https_of_scheme hcolon hhttps
  rw [if_neg hn7, if_neg hn8]

theorem dotSlashDot_false_of_no_slash {l : List Char} (h : '/' ∉ l) :
    dotSlashDot l = false := by
  unfold dotSlashDot
  rw [decide_eq_false_iff_not]
  rintro ⟨-, hmem⟩
  exact h (mem_stripDollarNl ((List.drop_sublist 1 _).subset
    ((List.dropLast_sublist _).subset hmem)))

theorem isWellFormedLink_false_of_no_path_http {rest : String}
    (h : '/' ∉ rest.data) :
    isWellFormedLink ("http://" ++ rest) = false := by
  have hdata : ("http://" ++ rest).data =
      ['h', 't', 't', 'p', ':', '/', '/'] ++ rest.data := by
    rw [String.data_append, http_data_eq]
  unfold isWellFormedLink
  rw [hdata, take7_of_http, ← http_data_eq, if_pos rfl, http_data_eq,
    drop7_of_http]
  exact dotSlashDot_false_of_no_slash h

theorem isWellFormedLink_false_of_no_path_https {rest : String}
    (h : '/' ∉ rest.data) :
    isWellFormedLink ("https://" ++ rest) = false := by
  have hdata : ("https://" ++ rest).data =
      ['h', 't', 't', 'p', 's', ':', '/', '/'] ++ rest.data := by
    rw [String.data_append, https_data_eq]
  unfold isWellFormedLink
  have hn7 : ¬ ((['h', 't', 't', 'p', 's', ':', '/', '/'] ++ rest.data).take 7 =
      "http://".data) := by
    rw [take7_of_https, http_data_eq]
    decide
  rw [hdata, if_neg hn7, take8_of_https, ← https_data_eq, if_pos rfl,
    https_data_eq, drop8_of_https]
  exact dotSlashDot_false_of_no_slash h

/-- Claim C6 counterexample: the raw link slash a line-feed b starts with a
slash followed by at least one character and does not match the
absolute-URL pattern, yet the link builder does not return base host plus
raw link as the claim states for this branch: the root-path pattern
rejects the embedded line feed, so the fall-through branch inserts an
extra slash. -/
theorem c6_claimed_root_branch_counterexample :
    ("/a\nb").data.head? = some '/' ∧ 2 ≤ ("/a\nb").length ∧
    ¬ MatchesWellFormed "/a\nb" ∧
    buildLink "https://x.com" "/a\nb" ≠ "https://x.com" ++ "/a\nb" := by
  refine ⟨by decide, by decide, ?_, by decide⟩
  intro hm
  exact absurd (isWellFormedLink_iff.mpr hm) (by decide)

/-- Claim C6 (amended): the link builder is a total function on strings;
a link matching the absolute-URL pattern is returned unchanged; otherwise
a link matching the root-path pattern (a slash followed by at least one
character, none of which is a line feed except an optional final one) is
appended to the base host; any other link is joined to the base host with
a slash. -/
theorem c6_link_resolution (host link : String) :
    (MatchesWellFormed link → buildLink host link = link) ∧
    (¬ MatchesWellFormed link → MatchesRootPath link →
      buildLink host link = host ++ link) ∧
    (¬ MatchesWellFormed link → ¬ MatchesRootPath link →
      buildLink host link = host ++ "/" ++ link) := by
  refine ⟨?_, ?_, ?_⟩
  · intro hm
    simp [buildLink, isWellFormedLink_iff.mpr hm]
  · intro hnm hr
    have h1 : isWellFormedLink link = false := by
      cases hb : isWellFormedLink link
      · rfl
      · exact absurd (isWellFormedLink_iff.mp hb) hnm
    simp [buildLink, h1, isRootPath_iff.mpr hr]
  · intro hnm hnr
    have h1 : isWellFormedLink link = false := by
      cases hb : isWellFormedLink link
      · rfl
      · exact absurd (isWellFormedLink_iff.mp hb) hnm
    have h2 : isRootPath link = false := by
      cases hb : isRootPath link
      · rfl
      · exact absurd (isRootPath_iff.mp hb) hnr
    exact buildLink_else h1 h2

/-- Claim C6 witness: the amended claim evaluated on the root-relative
link of the spec examples. -/
theorem c6_link_resolution_witness :
    buildLink "https://x.com" "/a/b" = "https://x.com" ++ "/a/b" := by
  refine (c6_link_resolution "https://x.com" "/a/b").2.1 ?_ ?_
  · intro hm
    exact absurd (isWellFormedLink_iff.mpr hm) (by decide)
  · exact isRootPath_iff.mp (by decide)

/-- Claim C10: an absolute link whose scheme is not http or https, or an
http or https link with no slash after the authority, fails both patterns
of the link builder, which therefore joins it to the base host with a
slash. -/
theorem c10_foreign_absolute_links_joined (host link : String)
    (h : (∃ scheme rest : String, link = scheme ++ "://" ++ rest ∧
            scheme ≠ "" ∧ scheme ≠ "http" ∧ scheme ≠ "https" ∧
            ':' ∉ scheme.data ∧ '/' ∉ scheme.data) ∨
         (∃ rest : String,
            (link = "http://" ++ rest ∨ link = "https://" ++ rest) ∧
            '/' ∉ rest.data)) :
    buildLink host link = host ++ "/" ++ link := by
  rcases h with ⟨scheme, rest, rfl, hne, hhttp, hhttps, hcolon, hslash⟩ |
    ⟨rest, hlink, hnos⟩
  · obtain ⟨d⟩ := scheme
    have hd : (String.mk d).data = d := rfl
    rcases d with _ | ⟨c, d'⟩
    · exact absurd rfl hne
    have h1 : isWellFormedLink (String.mk (c :: d') ++ "://" ++ rest) = false := by
      apply isWellFormedLink_false_of_scheme hcolon
      · intro hcontra
        exact hhttp (by rw [show ("http" : String) = String.mk ['h', 't', 't', 'p'] from rfl, ← hcontra])
      · intro hcontra
        exact hhttps (by rw [show ("https" : String) = String.mk ['h', 't', 't', 'p', 's'] from rfl, ← hcontra])
    have hdata : (String.mk (c :: d') ++ "://" ++ rest).data =
        c :: (d' ++ ':' :: '/' :: '/' :: rest.data) := by
      rw [String.data_append, String.data_append]
      simp [List.append_assoc]
    have h2 : isRootPath (String.mk (c :: d') ++ "://" ++ rest) = false := by
      apply isRootPath_false_of_head hdata
      intro hc
      exact hslash (by rw [← hc] at hslash ⊢; exact List.mem_cons_self c d')
    exact buildLink_else h1 h2
  · rcases hlink with rfl | rfl
    · have h1 := isWellFormedLink_false_of_no_path_http hnos
      have hdata : ("http://" ++ rest).data =
          'h' :: (['t', 't', 'p', ':', '/', '/'] ++ rest.data) := by
        rw [String.data_append, http_data_eq]
        rfl
      exact buildLink_else h1
        (isRootPath_false_of_head hdata (by decide))
    · have h1 := isWellFormedLink_false_of_no_path_https hnos
      have hdata : ("https://" ++ rest).data =
          'h' :: (['t', 't', 'p', 's', ':', '/', '/'] ++ rest.data) := by
        rw [String.data_append, https_data_eq]
        rfl
      exact buildLink_else h1
        (isRootPath_false_of_head hdata (by decide))

/-- Claim C10 witness: an ftp link is joined to the base host with a
slash instead of being passed through. -/
theorem c10_foreign_absolute_links_joined_witness :
    buildLink "https://x.com" "ftp://y.com/a" =
      "https://x.com" ++ "/" ++ "ftp://y.com/a" :=
  c10_foreign_absolute_links_joined "https://x.com" "ftp://y.com/a"
    (Or.inl ⟨"ftp", "y.com/a", rfl, by decide, by decide, by decide,
      by decide, by decide⟩)

/-- Claim C3: fetching through a failing transport yields no record and no
exception; a success with an absent or empty body yields no record; a
success with a non-empty body yields exactly the fetched record. The
transport outcomes are modelled from the spec since the page-object module
is not among the provided sources. -/
theorem c3_fetch_filtering (o : FetchOutcome) :
    ((o = FetchOutcome.httpError ∨ o = FetchOutcome.maxRetryError) →
      fetchArticle o = none) ∧
    (∀ a, o = FetchOutcome.success a →
      ((a.body = none ∨ a.body = some "") → fetchArticle o = none) ∧
      (a.body ≠ none → a.body ≠ some "" → fetchArticle o = some a)) := by
  constructor
  · rintro (rfl | rfl) <;> rfl
  · rintro a rfl
    constructor
    · rintro (hb | hb) <;> simp [fetchArticle, bodyIsFalsy, hb]
    · intro h1 h2
      rcases hb : a.body with _ | b
      · exact absurd hb h1
      · have hbne : b ≠ "" := fun hbe => h2 (by rw [hb, hbe])
        simp [fetchArticle, bodyIsFalsy, hb, hbne]

/-- Claim C3 witness: a successful fetch with a non-empty body produces
exactly that record. -/
theorem c3_fetch_filtering_witness :
    fetchArticle (FetchOutcome.success ⟨"https://y.com/a", some "T", some "B"⟩) =
      some ⟨"https://y.com/a", some "T", some "B"⟩ :=
  ((c3_fetch_filtering (FetchOutcome.success
      ⟨"https://y.com/a", some "T", some "B"⟩)).2
    ⟨"https://y.com/a", some "T", some "B"⟩ rfl).2 (by decide) (by decide)

/-- Claim C4: on a collection run where no link produces an article, the
article writer indexes the empty list and raises, so the run aborts (none)
instead of producing an empty well-formed file. This refutes the claim and
exhibits the code bug at the failing input of an all-failing homepage. -/
theorem c4_zero_articles_run_raises (host : String) (links : List String)
    (transport : String → FetchOutcome)
    (h : ∀ l ∈ links, fetchArticle (transport (buildLink host l)) = none) :
    newsScraper host links transport = none := by
  unfold newsScraper
  rw [List.filterMap_eq_nil_iff.mpr h]
  rfl

/-- Claim C4 witness: a one-link run whose only fetch hits a network
failure aborts in the writer. -/
theorem c4_zero_articles_run_raises_witness :
    newsScraper "https://x.com" ["/a"] (fun _ => FetchOutcome.maxRetryError) =
      none :=
  c4_zero_articles_run_raises "https://x.com" ["/a"]
    (fun _ => FetchOutcome.maxRetryError) (by decide)

/-! ## Theorems: per-row mapping over frames -/

theorem omlist_length {α β : Type _} {f : α → Option β} {l : List α}
    {l' : List β} (h : omlist f l = some l') : l'.length = l.length := by
  induction l generalizing l' with
  | nil =>
    unfold omlist at h
    cases h
    rfl
  | cons a as ih =>
    unfold omlist at h
    rcases hfa : f a with _ | b <;> rw [hfa] at h
    · simp at h
    rcases hrec : omlist f as with _ | bs <;> rw [hrec] at h
    · simp at h
    cases h
    simp [ih hrec]

theorem omlist_getElem? {α β : Type _} {f : α → Option β} {l : List α}
    {l' : List β} (h : omlist f l = some l') :
    ∀ i : Nat, l'[i]? = (l[i]?).bind f := by
  induction l generalizing l' with
  | nil =>
    unfold omlist at h
    cases h
    intro i
    simp
  | cons a as ih =>
    unfold omlist at h
    rcases hfa : f a with _ | b <;> rw [hfa] at h
    · simp at h
    rcases hrec : omlist f as with _ | bs <;> rw [hrec] at h
    · simp at h
    cases h
    intro i
    cases i with
    | zero => simp [hfa]
    | succ n => simpa using ih hrec n

theorem omlist_mem {α β : Type _} {f : α → Option β} {l : List α}
    {l' : List β} (h : omlist f l = some l') {b : β} (hb : b ∈ l') :
    ∃ a ∈ l, f a = some b := by
  obtain ⟨i, hi⟩ := List.mem_iff_getElem?.mp hb
  have hg := omlist_getElem? h i
  rw [hi] at hg
  rcases hl : l[i]? with _ | a
  · rw [hl] at hg; simp at hg
  · rw [hl] at hg
    exact ⟨a, List.mem_iff_getElem?.mpr ⟨i, hl⟩, hg.symm⟩

theorem omlist_some_of_all {α β : Type _} {f : α → Option β} {l : List α}
    (h : ∀ a ∈ l, f a ≠ none) : ∃ l', omlist f l = some l' := by
  induction l with
  | nil => exact ⟨[], rfl⟩
  | cons a as ih =>
    obtain ⟨bs, hbs⟩ := ih fun x hx => h x (List.mem_cons_of_mem a hx)
    rcases hfa : f a with _ | b
    · exact absurd hfa (h a (List.mem_cons_self a as))
    · exact ⟨b :: bs, by simp [omlist, hfa, hbs]⟩

theorem omlist_none_of_mem {α β : Type _} {f : α → Option β} {l : List α}
    {a : α} (ha : a ∈ l) (hfa : f a = none) : omlist f l = none := by
  induction l with
  | nil => simp at ha
  | cons x xs ih =>
    rcases List.mem_cons.mp ha with rfl | hmem
    · simp [omlist, hfa]
    · rcases hfx : f x with _ | b
      · simp [omlist, hfx]
      · simp [omlist, hfx, ih hmem]

theorem omlist_map_fuse {α β γ : Type _} (f : β → Option γ) (g : α → β)
    (l : List α) : omlist f (l.map g) = omlist (fun a => f (g a)) l := by
  induction l with
  | nil => rfl
  | cons a as ih => simp [omlist, ih]

theorem omlist_map_post {α β γ : Type _} (f : α → Option β) (g : β → γ)
    (l : List α) :
    (omlist f l).map (List.map g) = omlist (fun a => (f a).map g) l := by
  induction l with
  | nil => rfl
  | cons a as ih =>
    rcases hfa : f a with _ | b
    · simp [omlist, hfa]
    · rcases hrec : omlist f as with _ | bs <;>
        rw [hrec] at ih <;>
        simp [omlist, hfa, hrec, ← ih]

theorem omlist_bind_fuse {α β γ : Type _} (f : α → Option β)
    (g : β → Option γ) (l : List α) :
    (omlist f l).bind (omlist g) = omlist (fun a => (f a).bind g) l := by
  induction l with
  | nil => rfl
  | cons a as ih =>
    rcases hfa : f a with _ | b
    · simp [omlist, hfa]
    · rcases hrec : omlist f as with _ | bs <;> rw [hrec] at ih
      · rcases hg : g b with _ | c <;>
          simp [omlist, hfa, hrec, hg, ← ih]
      · rcases hg : g b with _ | c <;>
          simp [omlist, hfa, hrec, hg, ← ih]

theorem preDedup_eq_omlist (batch : List RawRow) (nuid : String) :
    preDedup batch nuid = omlist (processRow nuid) batch := by
  unfold preDedup extractHost addMissingTitles generateUidsForRows
    removeNewLinesFromBody addNewspaperUidColumn processRow
  simp only [List.map_map, omlist_map_fuse, omlist_map_post,
    omlist_bind_fuse, Function.comp_def]

/-! ## Theorems: duplicate removal -/

theorem dedup_title_notin_seen {rs : List Row} {seen : List (Option String)} :
    ∀ r' ∈ dedupByTitle rs seen, r'.title ∉ seen := by
  induction rs generalizing seen with
  | nil =>
    intro r' h
    simp [dedupByTitle] at h
  | cons r rs ih =>
    intro r' h
    unfold dedupByTitle at h
    split at h
    · exact ih r' h
    · rcases List.mem_cons.mp h with rfl | hmem
      · assumption
      · have hni := ih r' hmem
        exact fun hc => hni (List.mem_cons_of_mem _ hc)

theorem dedup_sublist (rs : List Row) (seen : List (Option String)) :
    List.Sublist (dedupByTitle rs seen) rs := by
  induction rs generalizing seen with
  | nil => simp [dedupByTitle]
  | cons r rs ih =>
    unfold dedupByTitle
    split
    · exact List.Sublist.cons r (ih seen)
    · exact List.Sublist.cons₂ r (ih _)

theorem dedup_pairwise (rs : List Row) (seen : List (Option String)) :
    List.Pairwise (fun a b => a.title ≠ b.title) (dedupByTitle rs seen) := by
  induction rs generalizing seen with
  | nil => simp [dedupByTitle]
  | cons r rs ih =>
    unfold dedupByTitle
    split
    · exact ih seen
    · refine List.Pairwise.cons ?_ (ih _)
      intro b hb hc
      exact dedup_title_notin_seen b hb (by rw [← hc]; exact List.mem_cons_self _ _)

theorem dedup_covers (rs : List Row) (seen : List (Option String)) :
    ∀ r ∈ rs, r.title ∈ seen ∨
      ∃ r' ∈ dedupByTitle rs seen, r'.title = r.title := by
  induction rs generalizing seen with
  | nil =>
    intro r h
    simp at h
  | cons x xs ih =>
    intro r h
    unfold dedupByTitle
    rcases List.mem_cons.mp h with heq | hmem
    · rw [heq]
      split
      · next hx => exact Or.inl hx
      · exact Or.inr ⟨x, List.mem_cons_self _ _, rfl⟩
    · split
      · next hx =>
        rcases ih seen r hmem with h1 | h2
        · exact Or.inl h1
        · exact Or.inr h2
      · next hx =>
        rcases ih (x.title :: seen) r hmem with h1 | h2
        · rcases List.mem_cons.mp h1 with heq | hseen
          · exact Or.inr ⟨x, List.mem_cons_self _ _, heq.symm⟩
          · exact Or.inl hseen
        · obtain ⟨r', hr', ht⟩ := h2
          exact Or.inr ⟨r', List.mem_cons_of_mem _ hr', ht⟩

theorem dedup_first_occurrence {rs : List Row} {seen : List (Option String)} :
    ∀ r' ∈ dedupByTitle rs seen,
      ∃ p q, rs = p ++ r' :: q ∧ ∀ x ∈ p, x.title ≠ r'.title := by
  induction rs generalizing seen with
  | nil =>
    intro r' h
    simp [dedupByTitle] at h
  | cons x xs ih =>
    intro r' h
    unfold dedupByTitle at h
    split at h
    · next hx =>
      obtain ⟨p, q, hpq, hne⟩ := ih r' h
      have hrt : r'.title ∉ seen := dedup_title_notin_seen r' h
      refine ⟨x :: p, q, by rw [hpq]; rfl, ?_⟩
      intro y hy
      rcases List.mem_cons.mp hy with rfl | hmem
      · exact fun hc => hrt (hc ▸ hx)
      · exact hne y hmem
    · next hx =>
      rcases List.mem_cons.mp h with rfl | hmem
      · exact ⟨[], xs, rfl, by simp⟩
      · obtain ⟨p, q, hpq, hne⟩ := ih r' hmem
        have hrt : r'.title ∉ x.title :: seen := dedup_title_notin_seen r' hmem
        refine ⟨x :: p, q, by rw [hpq]; rfl, ?_⟩
        intro y hy
        rcases List.mem_cons.mp hy with rfl | hmem'
        · exact fun hc => hrt (by rw [← hc]; exact List.mem_cons_self _ _)
        · exact hne y hmem'

theorem dropRows_eq_self {rows : List Row}
    (h : ∀ r ∈ rows, rowComplete r = true) :
    dropRowsMissingData rows = rows :=
  List.filter_eq_self.mpr h

/-! ## Theorems: the per-row stage functions -/

theorem hostRow_some {r r' : Row} (h : hostRow r = some r') :
    ∃ hs, netlocOf r.url = some hs ∧ r' = { r with host := some hs } := by
  unfold hostRow at h
  rcases hnet : netlocOf r.url with _ | hs <;> rw [hnet] at h
  · simp at h
  · rw [Option.map_some'] at h
    exact ⟨hs, rfl, (Option.some.inj h).symm⟩

theorem backfillRow_some_of_title {r r' : Row} {t : String}
    (ht : r.title = some t) (h : backfillRow r = some r') : r' = r := by
  unfold backfillRow at h
  rw [ht] at h
  exact (Option.some.inj h).symm

theorem backfillRow_some_of_none {r r' : Row} (ht : r.title = none)
    (h : backfillRow r = some r') :
    ∃ seg, lastSegment r.url = some seg ∧
      r' = { r with title := some (hyphenToSpace seg) } := by
  unfold backfillRow at h
  rw [ht] at h
  rcases hseg : lastSegment r.url with _ | seg <;> rw [hseg] at h
  · simp at h
  · rw [Option.map_some'] at h
    exact ⟨seg, rfl, (Option.some.inj h).symm⟩

theorem uidRow_some {r r' : Row} (h : uidRow r = some r') :
    ∃ bytes, encodeLatin1 r.url = some bytes ∧
      r' = { r with uid := some (md5Hex bytes) } := by
  unfold uidRow at h
  rcases henc : encodeLatin1 r.url with _ | bytes <;> rw [henc] at h
  · simp at h
  · rw [Option.map_some'] at h
    exact ⟨bytes, rfl, (Option.some.inj h).symm⟩

theorem stripRow_some {r r' : Row} (h : stripRow r = some r') :
    ∃ b, r.body = some b ∧
      r' = { r with body := some (removeNewLinesFromText b) } := by
  unfold stripRow at h
  rcases hb : r.body with _ | b <;> rw [hb] at h
  · simp at h
  · rw [Option.map_some'] at h
    exact ⟨b, rfl, (Option.some.inj h).symm⟩

theorem hostRow_total {r : Row} (h : netlocOf r.url ≠ none) :
    ∃ r', hostRow r = some r' := by
  rcases hn : netlocOf r.url with _ | hs
  · exact absurd hn h
  · exact ⟨_, by unfold hostRow; rw [hn]; rfl⟩

theorem backfillRow_total {r : Row}
    (h : r.title = none → lastSegment r.url ≠ none) :
    ∃ r', backfillRow r = some r' := by
  rcases ht : r.title with _ | t
  · rcases hseg : lastSegment r.url with _ | seg
    · exact absurd hseg (h ht)
    · have hval : backfillRow r = (lastSegment r.url).map
          fun seg => { r with title := some (hyphenToSpace seg) } := by
        unfold backfillRow
        rw [ht]
      exact ⟨_, by rw [hval, hseg]; rfl⟩
  · exact ⟨r, by unfold backfillRow; rw [ht]⟩

theorem uidRow_total {r : Row} (h : encodeLatin1 r.url ≠ none) :
    ∃ r', uidRow r = some r' := by
  rcases henc : encodeLatin1 r.url with _ | bytes
  · exact absurd henc h
  · exact ⟨_, by unfold uidRow; rw [henc]; rfl⟩

theorem stripRow_total {r : Row} (h : r.body ≠ none) :
    ∃ r', stripRow r = some r' := by
  rcases hb : r.body with _ | b
  · exact absurd hb h
  · exact ⟨_, by unfold stripRow; rw [hb]; rfl⟩

theorem hostRow_none {r : Row} (hn : netlocOf r.url = none) :
    hostRow r = none := by
  unfold hostRow
  rw [hn]
  rfl

theorem backfillRow_none {r : Row} (ht : r.title = none)
    (hseg : lastSegment r.url = none) : backfillRow r = none := by
  have hval : backfillRow r = (lastSegment r.url).map
      fun sg => { r with title := some (hyphenToSpace sg) } := by
    unfold backfillRow
    rw [ht]
  rw [hval, hseg]
  rfl

theorem backfillRow_some_pres {r r' : Row} (h : backfillRow r = some r') :
    r'.url = r.url ∧ r'.body = r.body := by
  rcases ht : r.title with _ | t
  · obtain ⟨seg, -, rfl⟩ := backfillRow_some_of_none ht h
    exact ⟨rfl, rfl⟩
  · obtain rfl := backfillRow_some_of_title ht h
    exact ⟨rfl, rfl⟩

/-! ## Theorems: the fused per-row transform -/

theorem processRow_some {nuid : String} {raw : RawRow} {r : Row}
    (h : processRow nuid raw = some r) :
    r.url = raw.url ∧
    r.newspaperUid = some nuid ∧
    (∃ hs, netlocOf raw.url = some hs ∧ r.host = some hs) ∧
    (∃ bytes, encodeLatin1 raw.url = some bytes ∧ r.uid = some (md5Hex bytes)) ∧
    (∃ b, raw.body = some b ∧ r.body = some (removeNewLinesFromText b)) ∧
    ((∃ t, raw.title = some t ∧ r.title = some t) ∨
      (raw.title = none ∧ ∃ seg, lastSegment raw.url = some seg ∧
        r.title = some (hyphenToSpace seg))) ∧
    (∃ t', r.title = some t' ∧ r.nTokensTitle = some (tokenCount t')) ∧
    (∃ b', r.body = some b' ∧ r.nTokensBody = some (tokenCount b')) ∧
    rowComplete r = true := by
  obtain ⟨u, ti, bo⟩ := raw
  unfold processRow at h
  rcases hx : hostRow { initRow ⟨u, ti, bo⟩ with newspaperUid := some nuid }
    with _ | x <;> rw [hx] at h
  · simp at h
  rw [Option.some_bind] at h
  rcases hy : backfillRow x with _ | y <;> rw [hy] at h
  · simp at h
  rw [Option.some_bind] at h
  rcases hz : uidRow y with _ | z <;> rw [hz] at h
  · simp at h
  rw [Option.some_bind] at h
  rcases hw : stripRow z with _ | w <;> rw [hw] at h
  · simp at h
  rw [Option.map_some'] at h
  obtain rfl : r = tokensBodyRow (tokensTitleRow w) := (Option.some.inj h).symm
  obtain ⟨hs, hnet, rfl⟩ := hostRow_some hx
  cases ti with
  | none =>
    obtain ⟨seg, hseg, rfl⟩ := backfillRow_some_of_none rfl hy
    obtain ⟨bytes, henc, rfl⟩ := uidRow_some hz
    obtain ⟨b, hbody, rfl⟩ := stripRow_some hw
    exact ⟨rfl, rfl, ⟨hs, hnet, rfl⟩, ⟨bytes, henc, rfl⟩, ⟨b, hbody, rfl⟩,
      Or.inr ⟨rfl, seg, hseg, rfl⟩, ⟨hyphenToSpace seg, rfl, rfl⟩,
      ⟨removeNewLinesFromText b, rfl, rfl⟩, rfl⟩
  | some t =>
    obtain rfl := backfillRow_some_of_title (t := t) rfl hy
    obtain ⟨bytes, henc, rfl⟩ := uidRow_some hz
    obtain ⟨b, hbody, rfl⟩ := stripRow_some hw
    exact ⟨rfl, rfl, ⟨hs, hnet, rfl⟩, ⟨bytes, henc, rfl⟩, ⟨b, hbody, rfl⟩,
      Or.inl ⟨t, rfl, rfl⟩, ⟨t, rfl, rfl⟩,
      ⟨removeNewLinesFromText b, rfl, rfl⟩, rfl⟩

theorem processRow_total {nuid : String} {raw : RawRow}
    (hb : raw.body ≠ none)
    (ht : raw.title = none → lastSegment raw.url ≠ none)
    (he : encodeLatin1 raw.url ≠ none)
    (hn : netlocOf raw.url ≠ none) :
    processRow nuid raw ≠ none := by
  obtain ⟨x, hx⟩ :=
    hostRow_total (r := { initRow raw with newspaperUid := some nuid }) hn
  obtain ⟨hs, -, hxe⟩ := hostRow_some hx
  obtain ⟨y, hy⟩ := backfillRow_total (r := x)
    (by rw [hxe]; exact ht)
  obtain ⟨hyu, hyb⟩ := backfillRow_some_pres hy
  obtain ⟨z, hz⟩ := uidRow_total (r := y)
    (by rw [hyu, hxe]; exact he)
  obtain ⟨bytes, -, hze⟩ := uidRow_some hz
  obtain ⟨w, hw⟩ := stripRow_total (r := z)
    (by rw [hze]; show y.body ≠ none; rw [hyb, hxe]; exact hb)
  intro hcontra
  unfold processRow at hcontra
  rw [hx, Option.some_bind, hy, Option.some_bind, hz, Option.some_bind, hw,
    Option.map_some'] at hcontra
  exact Option.noConfusion hcontra

/-! ## Theorems: backfill text and body normalization helpers -/

theorem joinWith_single (sep : Char) (p : List Char) : joinWith sep [p] = p :=
  rfl

theorem joinWith_cons_cons (sep : Char) (p p2 : List Char)
    (ps : List (List Char)) :
    joinWith sep (p :: p2 :: ps) = p ++ sep :: joinWith sep (p2 :: ps) := rfl

theorem splitOnChar_ne_nil (sep : Char) (l : List Char) :
    splitOnChar sep l ≠ [] := by
  cases l with
  | nil => simp [splitOnChar]
  | cons c rest =>
    unfold splitOnChar
    split
    · exact List.cons_ne_nil _ _
    · rcases hrec : splitOnChar sep rest with _ | ⟨p, ps⟩ <;>
        exact List.cons_ne_nil _ _

theorem joinWith_splitOnChar (l : List Char) :
    joinWith ' ' (splitOnChar '-' l) =
      l.map fun c => if c = '-' then ' ' else c := by
  induction l with
  | nil => rfl
  | cons c rest ih =>
    unfold splitOnChar
    by_cases hc : c = '-'
    · rw [if_pos hc]
      rcases hsp : splitOnChar '-' rest with _ | ⟨p, ps⟩
      · exact absurd hsp (splitOnChar_ne_nil '-' rest)
      · rw [hsp] at ih
        rw [joinWith_cons_cons, List.nil_append, ih, List.map_cons, if_pos hc]
    · rw [if_neg hc]
      rcases hsp : splitOnChar '-' rest with _ | ⟨p, ps⟩
      · exact absurd hsp (splitOnChar_ne_nil '-' rest)
      · rw [hsp] at ih
        have hred : (match p :: ps with
            | [] => [[c]]
            | p :: ps => (c :: p) :: ps) = (c :: p) :: ps := rfl
        rw [hred]
        cases ps with
        | nil =>
          rw [joinWith_single] at ih
          rw [joinWith_single, List.map_cons, if_neg hc, ih]
        | cons p2 ps2 =>
          rw [joinWith_cons_cons] at ih
          rw [joinWith_cons_cons, List.cons_append, List.map_cons, if_neg hc,
            ih]

theorem lastSegment_data_ne_nil {url seg : String}
    (h : lastSegment url = some seg) : seg.data ≠ [] := by
  unfold lastSegment at h
  split at h
  · simp at h
  · next hcond =>
    obtain rfl : seg = _ := (Option.some.inj h).symm
    intro hd
    exact hcond (by rw [show (url.data.reverse.takeWhile
      (fun c => c != '/')).reverse = [] from hd]; rfl)

theorem hyphenToSpace_data_ne_nil {seg : String} (h : seg.data ≠ []) :
    (hyphenToSpace seg).data ≠ [] := by
  show joinWith ' ' (splitOnChar '-' seg.data) ≠ []
  rw [joinWith_splitOnChar]
  intro hc
  exact h (List.map_eq_nil_iff.mp hc)

theorem string_ne_empty {s : String} (h : s.data ≠ []) : s ≠ "" :=
  fun hs => h (by rw [hs])

theorem data_ne_nil_of_ne_empty {s : String} (h : s ≠ "") : s.data ≠ [] := by
  intro hd
  apply h
  cases s with
  | mk d =>
    have hd' : d = [] := hd
    rw [hd']

theorem removeNewLines_data (b : String) :
    (removeNewLinesFromText b).data = b.data.map stripChar := rfl

theorem stripChar_eq (c : Char) :
    stripChar c = if c = '\n' ∨ c = '\r' then ' ' else c := by
  unfold stripChar
  by_cases h1 : c = '\n' <;> by_cases h2 : c = '\r' <;> simp [h1, h2]

theorem stripChar_ne_nl (c : Char) : stripChar c ≠ '\n' := by
  rw [stripChar_eq]
  split
  · decide
  · next h => exact fun hc => h (Or.inl hc)

theorem stripChar_ne_cr (c : Char) : stripChar c ≠ '\r' := by
  rw [stripChar_eq]
  split
  · decide
  · next h => exact fun hc => h (Or.inr hc)

/-! ## Theorems: pipeline structure -/

theorem cleanPipeline_some {batch : List RawRow} {nuid : String}
    {out : List Row} (h : cleanPipeline batch nuid = some out) :
    ∃ pre, preDedup batch nuid = some pre ∧
      out = dropRowsMissingData (removeDuplicateEntries pre) := by
  unfold cleanPipeline at h
  rcases hp : preDedup batch nuid with _ | pre <;> rw [hp] at h
  · simp at h
  · rw [Option.map_some'] at h
    exact ⟨pre, rfl, (Option.some.inj h).symm⟩

theorem mem_pre_processRow {batch : List RawRow} {nuid : String}
    {pre : List Row} (h : preDedup batch nuid = some pre) :
    ∀ r ∈ pre, ∃ raw ∈ batch, processRow nuid raw = some r := by
  intro r hr
  have hml : omlist (processRow nuid) batch = some pre := by
    rw [← preDedup_eq_omlist]
    exact h
  exact omlist_mem hml hr

theorem pre_complete {batch : List RawRow} {nuid : String} {pre : List Row}
    (h : preDedup batch nuid = some pre) :
    ∀ r ∈ pre, rowComplete r = true := by
  intro r hr
  obtain ⟨raw, -, hp⟩ := mem_pre_processRow h r hr
  exact (processRow_some hp).2.2.2.2.2.2.2.2

theorem mem_out_processRow {batch : List RawRow} {nuid : String}
    {out : List Row} (h : cleanPipeline batch nuid = some out) :
    ∀ r ∈ out, ∃ raw ∈ batch, processRow nuid raw = some r := by
  obtain ⟨pre, hpre, rfl⟩ := cleanPipeline_some h
  intro r hr
  have hr1 : r ∈ removeDuplicateEntries pre := List.mem_of_mem_filter hr
  have hr2 : r ∈ pre := (dedup_sublist pre []).subset hr1
  exact mem_pre_processRow hpre r hr2

/-! ## Claim theorems of the cleaning pipeline -/

/-- Claim C1 counterexample: on a batch whose single row has the malformed
url notaurl, host extraction yields the empty string, yet the row is not
dropped by the final completeness filter: the run succeeds and the cleaned
dataset contains the row with an empty host, because dropna removes only
missing values and an empty string is not missing. -/
theorem c1_empty_host_row_survives :
    cleanPipeline [⟨"notaurl", some "T", some "B"⟩] "n" =
      some [⟨"notaurl", some "T", some "B", some "n", some "",
        some "4f26544ab0890e6be040660cc52e69fc", some 1, some 1⟩] ∧
    (⟨"notaurl", some "T", some "B", some "n", some "",
        some "4f26544ab0890e6be040660cc52e69fc", some 1, some 1⟩ : Row).host =
      some "" := ⟨by decide, rfl⟩

/-- Claim C1 (amended): every row of a cleaned dataset has a present
non-empty title, a present non-empty body, present token counts (natural
numbers, hence non-negative) and a present host; the host may however be
the empty string, since the completeness filter drops only missing values.
The input hypothesis models the CSV reader, which turns empty fields into
missing values, so a present raw title or body is never the empty
string. -/
theorem c1_cleaned_rows_completeness (batch : List RawRow) (nuid : String)
    (out : List Row)
    (hin : ∀ raw ∈ batch, raw.title ≠ some "" ∧ raw.body ≠ some "")
    (h : cleanPipeline batch nuid = some out) :
    ∀ r ∈ out,
      (∃ t, r.title = some t ∧ t ≠ "") ∧
      (∃ b, r.body = some b ∧ b ≠ "") ∧
      (∃ hs, r.host = some hs) ∧
      (∃ n : Nat, r.nTokensTitle = some n) ∧
      (∃ m : Nat, r.nTokensBody = some m) := by
  intro r hr
  obtain ⟨raw, hraw, hp⟩ := mem_out_processRow h r hr
  obtain ⟨-, -, ⟨hs, -, hhost⟩, -, ⟨b, hbraw, hbody⟩, htitle,
    ⟨t', -, hnt⟩, ⟨b', -, hnb⟩, -⟩ := processRow_some hp
  refine ⟨?_, ?_, ⟨hs, hhost⟩, ⟨tokenCount t', hnt⟩, ⟨tokenCount b', hnb⟩⟩
  · rcases htitle with ⟨t, hrawt, hrt⟩ | ⟨-, seg, hseg, hrt⟩
    · refine ⟨t, hrt, ?_⟩
      intro hte
      exact (hin raw hraw).1 (by rw [hrawt, hte])
    · refine ⟨hyphenToSpace seg, hrt, ?_⟩
      exact string_ne_empty
        (hyphenToSpace_data_ne_nil (lastSegment_data_ne_nil hseg))
  · refine ⟨removeNewLinesFromText b, hbody, ?_⟩
    apply string_ne_empty
    rw [removeNewLines_data]
    intro hmap
    exact data_ne_nil_of_ne_empty
      (fun hbe => (hin raw hraw).2 (by rw [hbraw, hbe]))
      (List.map_eq_nil_iff.mp hmap)

/-- Claim C1 witness: the amended claim evaluated on a one-row batch and
its cleaned row. -/
theorem c1_cleaned_rows_completeness_witness :
    (∃ t, (⟨"u", some "T", some "B", some "n", some "",
        some "7b774effe4a349c6dd82ad4f4f21d34c", some 1, some 1⟩ : Row).title =
        some t ∧ t ≠ "") ∧
    (∃ b, (⟨"u", some "T", some "B", some "n", some "",
        some "7b774effe4a349c6dd82ad4f4f21d34c", some 1, some 1⟩ : Row).body =
        some b ∧ b ≠ "") ∧
    (∃ hs, (⟨"u", some "T", some "B", some "n", some "",
        some "7b774effe4a349c6dd82ad4f4f21d34c", some 1, some 1⟩ : Row).host =
        some hs) ∧
    (∃ n : Nat, (⟨"u", some "T", some "B", some "n", some "",
        some "7b774effe4a349c6dd82ad4f4f21d34c", some 1,
        some 1⟩ : Row).nTokensTitle = some n) ∧
    (∃ m : Nat, (⟨"u", some "T", some "B", some "n", some "",
        some "7b774effe4a349c6dd82ad4f4f21d34c", some 1,
        some 1⟩ : Row).nTokensBody = some m) :=
  c1_cleaned_rows_completeness [⟨"u", some "T", some "B"⟩] "n"
    [⟨"u", some "T", some "B", some "n", some "",
      some "7b774effe4a349c6dd82ad4f4f21d34c", some 1, some 1⟩]
    (by decide) (by decide)
    ⟨"u", some "T", some "B", some "n", some "",
      some "7b774effe4a349c6dd82ad4f4f21d34c", some 1, some 1⟩
    (List.mem_singleton_self _)

/-- Claim C2: in a cleaned dataset no two rows share a title; the kept rows
are exactly the first occurrences, in input order, of each title of the
pre-deduplication frame, whose rows correspond one to one and in order
with the raw input batch (same url at every index). -/
theorem c2_title_uniqueness (batch : List RawRow) (nuid : String)
    (out : List Row) (h : cleanPipeline batch nuid = some out) :
    List.Pairwise (fun a b => a.title ≠ b.title) out ∧
    ∃ pre, preDedup batch nuid = some pre ∧
      pre.length = batch.length ∧
      (∀ i : Nat, (pre[i]?).map Row.url = (batch[i]?).map RawRow.url) ∧
      List.Sublist out pre ∧
      (∀ r ∈ pre, ∃ r' ∈ out, r'.title = r.title) ∧
      (∀ r' ∈ out, ∃ p q, pre = p ++ r' :: q ∧ ∀ x ∈ p, x.title ≠ r'.title) := by
  obtain ⟨pre, hpre, rfl⟩ := cleanPipeline_some h
  have hml : omlist (processRow nuid) batch = some pre := by
    rw [← preDedup_eq_omlist]
    exact hpre
  have hcomplete : ∀ r ∈ removeDuplicateEntries pre, rowComplete r = true :=
    fun r hr => pre_complete hpre r ((dedup_sublist pre []).subset hr)
  have hout : dropRowsMissingData (removeDuplicateEntries pre) =
      removeDuplicateEntries pre := dropRows_eq_self hcomplete
  rw [hout]
  refine ⟨dedup_pairwise pre [], pre, hpre, omlist_length hml, ?_,
    dedup_sublist pre [], ?_, ?_⟩
  · intro i
    have hg := omlist_getElem? hml i
    rcases hb : batch[i]? with _ | raw
    · rw [hb, Option.none_bind] at hg
      rw [hg]
      rfl
    · rw [hb, Option.some_bind] at hg
      rcases hpi : pre[i]? with _ | r
      · rw [hpi] at hg
        have hlen : pre.length ≤ i := List.getElem?_eq_none_iff.mp hpi
        rw [omlist_length hml] at hlen
        rw [List.getElem?_eq_none_iff.mpr hlen] at hb
        exact absurd hb (by simp)
      · rw [hpi] at hg
        rw [Option.map_some', Option.map_some']
        exact congrArg some (processRow_some hg.symm).1
  · intro r hrpre
    rcases dedup_covers pre [] r hrpre with habs | hok
    · simp at habs
    · exact hok
  · exact fun r' hr' => dedup_first_occurrence r' hr'

/-- Claim C2 witness: title uniqueness of the cleaned one-row dataset. -/
theorem c2_title_uniqueness_witness :
    List.Pairwise (fun a b => a.title ≠ b.title)
      [(⟨"u", some "T", some "B", some "n", some "",
        some "7b774effe4a349c6dd82ad4f4f21d34c", some 1, some 1⟩ : Row)] :=
  (c2_title_uniqueness [⟨"u", some "T", some "B"⟩] "n"
    [⟨"u", some "T", some "B", some "n", some "",
      some "7b774effe4a349c6dd82ad4f4f21d34c", some 1, some 1⟩]
    (by decide)).1

/-- Claim C5: the uid of every cleaned row is the MD5 hex digest of the
Latin-1 bytes of its url, a pure function of the url alone; in particular
two rows with the same url, coming from any two pipeline runs, carry the
identical uid. -/
theorem c5_uid_deterministic (b1 b2 : List RawRow) (n1 n2 : String)
    (o1 o2 : List Row) (r1 r2 : Row)
    (h1 : cleanPipeline b1 n1 = some o1) (h2 : cleanPipeline b2 n2 = some o2)
    (hr1 : r1 ∈ o1) (hr2 : r2 ∈ o2) (hurl : r1.url = r2.url) :
    r1.uid = r2.uid ∧
    ∃ bytes, encodeLatin1 r1.url = some bytes ∧ r1.uid = some (md5Hex bytes) := by
  obtain ⟨raw1, -, hp1⟩ := mem_out_processRow h1 r1 hr1
  obtain ⟨raw2, -, hp2⟩ := mem_out_processRow h2 r2 hr2
  obtain ⟨hu1, -, -, ⟨bytes1, henc1, huid1⟩, -⟩ := processRow_some hp1
  obtain ⟨hu2, -, -, ⟨bytes2, henc2, huid2⟩, -⟩ := processRow_some hp2
  have henc1r : encodeLatin1 r1.url = some bytes1 := by rw [hu1]; exact henc1
  have henc2r : encodeLatin1 r2.url = some bytes2 := by rw [hu2]; exact henc2
  have hbytes : bytes1 = bytes2 := by
    have h12 : encodeLatin1 r2.url = some bytes1 := by rw [← hurl]; exact henc1r
    rw [henc2r] at h12
    exact (Option.some.inj h12).symm
  refine ⟨?_, bytes1, henc1r, huid1⟩
  rw [huid1, huid2, hbytes]

/-- Claim C5 witness: the uid of the cleaned demo row is the digest of its
url bytes. -/
theorem c5_uid_deterministic_witness :
    (⟨"u", some "T", some "B", some "n", some "",
      some "7b774effe4a349c6dd82ad4f4f21d34c", some 1, some 1⟩ : Row).uid =
      (⟨"u", some "T", some "B", some "n", some "",
        some "7b774effe4a349c6dd82ad4f4f21d34c", some 1, some 1⟩ : Row).uid ∧
    ∃ bytes, encodeLatin1 (⟨"u", some "T", some "B", some "n", some "",
        some "7b774effe4a349c6dd82ad4f4f21d34c", some 1, some 1⟩ : Row).url =
        some bytes ∧
      (⟨"u", some "T", some "B", some "n", some "",
        some "7b774effe4a349c6dd82ad4f4f21d34c", some 1, some 1⟩ : Row).uid =
        some (md5Hex bytes) :=
  c5_uid_deterministic [⟨"u", some "T", some "B"⟩] [⟨"u", some "T", some "B"⟩]
    "n" "n"
    [⟨"u", some "T", some "B", some "n", some "",
      some "7b774effe4a349c6dd82ad4f4f21d34c", some 1, some 1⟩]
    [⟨"u", some "T", some "B", some "n", some "",
      some "7b774effe4a349c6dd82ad4f4f21d34c", some 1, some 1⟩]
    _ _ (by decide) (by decide) (List.mem_singleton_self _)
    (List.mem_singleton_self _) rfl

/-- Claim C7: body normalization removes every line feed and carriage
return, replaces each of them in place by a single space, leaves every
other character unchanged in its original position, and preserves the
character count. -/
theorem c7_body_normalization (body : String) :
    '\n' ∉ (removeNewLinesFromText body).data ∧
    '\r' ∉ (removeNewLinesFromText body).data ∧
    (removeNewLinesFromText body).length = body.length ∧
    ∀ i : Nat, ((removeNewLinesFromText body).data)[i]? =
      (body.data[i]?).map fun c => if c = '\n' ∨ c = '\r' then ' ' else c := by
  refine ⟨?_, ?_, ?_, ?_⟩
  · intro hmem
    rw [removeNewLines_data] at hmem
    obtain ⟨c, -, hc⟩ := List.mem_map.mp hmem
    exact stripChar_ne_nl c hc
  · intro hmem
    rw [removeNewLines_data] at hmem
    obtain ⟨c, -, hc⟩ := List.mem_map.mp hmem
    exact stripChar_ne_cr c hc
  · show (removeNewLinesFromText body).data.length = body.data.length
    rw [removeNewLines_data, List.length_map]
  · intro i
    rw [removeNewLines_data, List.getElem?_map]
    rcases body.data[i]? with _ | c
    · rfl
    · rw [Option.map_some', Option.map_some', stripChar_eq]

/-- Claim C8 counterexample: a batch whose single row has an absent title
and a url ending in a slash makes the whole cleaning run raise in the
title-backfill stage (the element-wise split is applied to a missing
value), instead of leaving the row titleless and dropping it at the
completeness filter. -/
theorem c8_unextractable_segment_aborts :
    cleanPipeline [⟨"https://n.com/x/", none, some "B"⟩] "n" = none := by
  decide

/-- Claim C8 (amended): a row with an absent title whose url has an
extractable final segment is backfilled, at its position, with the segment
split on minus signs and rejoined with single spaces; a batch containing a
row with an absent title and no extractable segment makes the whole
cleaning run raise in the backfill stage, producing no cleaned dataset at
all. -/
theorem c8_title_backfill :
    (∀ (rows out : List Row) (i : Nat) (r : Row) (seg : String),
      addMissingTitles rows = some out → rows[i]? = some r →
      r.title = none → lastSegment r.url = some seg →
      out[i]? = some { r with title := some (hyphenToSpace seg) }) ∧
    (∀ (batch : List RawRow) (nuid : String),
      (∃ raw ∈ batch, raw.title = none ∧ lastSegment raw.url = none) →
      cleanPipeline batch nuid = none) := by
  constructor
  · intro rows out i r seg hml hri ht hseg
    have hg := omlist_getElem? (f := backfillRow) hml i
    rw [hri, Option.some_bind] at hg
    have hval : backfillRow r = (lastSegment r.url).map
        fun sg => { r with title := some (hyphenToSpace sg) } := by
      unfold backfillRow
      rw [ht]
    rw [hval, hseg, Option.map_some'] at hg
    exact hg
  · rintro batch nuid ⟨raw, hraw, ht, hseg⟩
    have hpnone : processRow nuid raw = none := by
      unfold processRow
      rcases hx : hostRow { initRow raw with newspaperUid := some nuid }
        with _ | x
      · rw [Option.none_bind]
      · rw [Option.some_bind]
        obtain ⟨hs, -, hxe⟩ := hostRow_some hx
        have hxt : x.title = none := by rw [hxe]; exact ht
        have hxu : lastSegment x.url = none := by rw [hxe]; exact hseg
        rw [backfillRow_none hxt hxu, Option.none_bind]
    unfold cleanPipeline
    rw [preDedup_eq_omlist, omlist_none_of_mem hraw hpnone]
    rfl

/-- Claim C8 witness: the backfill of the spec scenario row, whose url
ends in the segment x-y-z. -/
theorem c8_title_backfill_witness :
    ([(⟨"https://n.com/x-y-z", some "x y z", some "B", none, none, none,
      none, none⟩ : Row)])[0]? = some ⟨"https://n.com/x-y-z", some "x y z",
      some "B", none, none, none, none, none⟩ :=
  c8_title_backfill.1
    [⟨"https://n.com/x-y-z", none, some "B", none, none, none, none, none⟩]
    [⟨"https://n.com/x-y-z", some "x y z", some "B", none, none, none, none,
      none⟩]
    0 ⟨"https://n.com/x-y-z", none, some "B", none, none, none, none, none⟩
    "x-y-z" (by decide) (by decide) rfl (by decide)

/-- Claim C9 counterexample: a batch with all required columns present in
which one row has an absent body makes the body-normalization stage raise
(listing the characters of a missing value), aborting the run instead of
silently excluding the row. -/
theorem c9_absent_body_aborts :
    cleanPipeline [⟨"https://n.com/a", some "T", none⟩] "n" = none := by
  decide

/-- Claim C9 (amended): the pipeline completes without error on a batch
exactly when every row can be processed: a present body, a backfillable
title (an absent title needs an extractable url segment), a Latin-1
encodable url and a parseable host. Rows failing these conditions abort
the run with an error instead of being silently excluded, and empty-host
rows are retained rather than dropped. -/
theorem c9_pipeline_totality (batch : List RawRow) (nuid : String)
    (h : ∀ raw ∈ batch, raw.body ≠ none ∧
      (raw.title = none → lastSegment raw.url ≠ none) ∧
      encodeLatin1 raw.url ≠ none ∧ netlocOf raw.url ≠ none) :
    ∃ out, cleanPipeline batch nuid = some out := by
  have hall : ∀ raw ∈ batch, processRow nuid raw ≠ none := fun raw hraw =>
    processRow_total (h raw hraw).1 (h raw hraw).2.1 (h raw hraw).2.2.1
      (h raw hraw).2.2.2
  obtain ⟨pre, hpre⟩ := omlist_some_of_all hall
  refine ⟨dropRowsMissingData (removeDuplicateEntries pre), ?_⟩
  unfold cleanPipeline
  rw [preDedup_eq_omlist, hpre, Option.map_some']

/-- Claim C9 witness: the amended totality condition evaluated on a
one-row batch. -/
theorem c9_pipeline_totality_witness :
    ∃ out, cleanPipeline [⟨"u", some "T", some "B"⟩] "n" = some out :=
  c9_pipeline_totality [⟨"u", some "T", some "B"⟩] "n" (by decide)

end News
